import Mathlib

/-!
# A shallow embedding of the `ovrf` sequence model (`hexse/sequence_info.py`)

This file embeds, in Lean 4, the parts of the `ovrf` repository that the
verified claims are about: the nucleotide / codon / ORF data model, codon
resolution (`find_codons`), the substitution-rate assignment
(`set_substitution_rates`), the event-tree construction
(`create_event_tree`, `nt_in_event_tree`), the probability pass
(`compute_probability`), and the per-layer event counting
(`count_events_per_layer`), together with the ORF validation routine
`valid_orfs` from `src/run_simulation.py`.

Python's heterogeneous nested dictionaries (the event tree, the per-site
ω records) are modelled by a small dynamic value type `PyVal` with keys
`PyKey`; dictionary accesses that would raise `KeyError`/`TypeError` in
Python are modelled as `Option` failures.  Randomness
(`random.randrange`, `random.choice`) is modelled by an explicit stream
of naturals (`RNG`); a draw of `randrange(k)` takes the head of the
stream modulo `k`, so quantifying over streams covers every possible
sequence of draws.

The value model does not represent Python object identity: the source's
`create_event_tree` stores one shared `cat_dict` object under every
`from_nt` key, while here each branch holds its own (equal) value.  None
of the statements below depends on that distinction: every theorem about
the event tree concerns accesses that fail before any successful
mutation of the shared structure.
-/

set_option linter.unusedVariables false

/-- The four nucleotide bases `A`, `C`, `G`, `T` (module constant `NUCLEOTIDES`
lists them in this order). -/
inductive Base where
  | A
  | C
  | G
  | T
deriving DecidableEq, Repr, Inhabited

/-- `NUCLEOTIDES = ['A', 'C', 'G', 'T']`, the iteration order used throughout
`sequence_info.py`. -/
def NUCLEOTIDES : List Base := [.A, .C, .G, .T]

/-- `TRANSITIONS_DICT = {'A': 'G', 'G': 'A', 'T': 'C', 'C': 'T'}`. -/
def TRANSITIONS_DICT : Base → Base
  | .A => .G
  | .G => .A
  | .T => .C
  | .C => .T

/-- `COMPLEMENT_DICT` restricted to the four plain bases (the remaining keys
are IUPAC ambiguity codes that never occur in a validated sequence). -/
def COMPLEMENT_DICT : Base → Base
  | .A => .T
  | .C => .G
  | .G => .C
  | .T => .A

/-- The 64-entry genetic code `CODON_DICT`, as a function of the three codon
positions.  `'*'` marks a stop codon.  The two extra keys `'---'` and `'XXX'`
of the Python dict involve characters outside `Base` and are omitted. -/
def CODON_DICT : Base → Base → Base → Char
  | .T, .T, .T => 'F'
  | .T, .T, .C => 'F'
  | .T, .T, .A => 'L'
  | .T, .T, .G => 'L'
  | .T, .C, .T => 'S'
  | .T, .C, .C => 'S'
  | .T, .C, .A => 'S'
  | .T, .C, .G => 'S'
  | .T, .A, .T => 'Y'
  | .T, .A, .C => 'Y'
  | .T, .A, .A => '*'
  | .T, .A, .G => '*'
  | .T, .G, .T => 'C'
  | .T, .G, .C => 'C'
  | .T, .G, .A => '*'
  | .T, .G, .G => 'W'
  | .C, .T, .T => 'L'
  | .C, .T, .C => 'L'
  | .C, .T, .A => 'L'
  | .C, .T, .G => 'L'
  | .C, .C, .T => 'P'
  | .C, .C, .C => 'P'
  | .C, .C, .A => 'P'
  | .C, .C, .G => 'P'
  | .C, .A, .T => 'H'
  | .C, .A, .C => 'H'
  | .C, .A, .A => 'Q'
  | .C, .A, .G => 'Q'
  | .C, .G, .T => 'R'
  | .C, .G, .C => 'R'
  | .C, .G, .A => 'R'
  | .C, .G, .G => 'R'
  | .A, .T, .T => 'I'
  | .A, .T, .C => 'I'
  | .A, .T, .A => 'I'
  | .A, .T, .G => 'M'
  | .A, .C, .T => 'T'
  | .A, .C, .C => 'T'
  | .A, .C, .A => 'T'
  | .A, .C, .G => 'T'
  | .A, .A, .T => 'N'
  | .A, .A, .C => 'N'
  | .A, .A, .A => 'K'
  | .A, .A, .G => 'K'
  | .A, .G, .T => 'S'
  | .A, .G, .C => 'S'
  | .A, .G, .A => 'R'
  | .A, .G, .G => 'R'
  | .G, .T, .T => 'V'
  | .G, .T, .C => 'V'
  | .G, .T, .A => 'V'
  | .G, .T, .G => 'V'
  | .G, .C, .T => 'A'
  | .G, .C, .C => 'A'
  | .G, .C, .A => 'A'
  | .G, .C, .G => 'A'
  | .G, .A, .T => 'D'
  | .G, .A, .C => 'D'
  | .G, .A, .A => 'E'
  | .G, .A, .G => 'E'
  | .G, .G, .T => 'G'
  | .G, .G, .C => 'G'
  | .G, .G, .A => 'G'
  | .G, .G, .G => 'G'

/-- Translation of a codon given as a list of bases; `none` when the list does
not have exactly three entries (Python would raise `KeyError` on the join). -/
def translate_triplet : List Base → Option Char
  | [b1, b2, b3] => some (CODON_DICT b1 b2 b3)
  | _ => none

/-- `Sequence.is_transv`: `none` when the two bases are equal (Python returns
`None`), otherwise `some true` for a transversion and `some false` for a
transition. -/
def is_transv (from_nt to_nt : Base) : Option Bool :=
  if from_nt = to_nt then none
  else some (¬ TRANSITIONS_DICT from_nt = to_nt)

/-- A `Nucleotide`'s immutable core: its base (`state`) and its position in
the sequence (`pos_in_seq`).  The mutable bookkeeping attributes (`rates`,
`omega_keys`, `cat_keys`, ...) are modelled separately by `NtResult`. -/
structure Nuc where
  state : Base
  pos : Nat
deriving DecidableEq, Repr, Inhabited

/-- The frame tag of an ORF.  The source stores strings `+0`, `+1`, `+2`,
`-0`, `-1`, `-2`
and only ever inspects `frame.startswith('-')`; `minus` models the tags that
start with `'-'`. -/
inductive Strand where
  | plus
  | minus
deriving DecidableEq, Repr, Inhabited

/-- An ORF descriptor as `sequence_info.py` consumes it: spliced coordinate
intervals (Python half-open slices), the drawn ω values, and the `orf_map`
one-hot bitmask (a tuple of ints in the input dictionary). -/
structure OrfInfo where
  coords : List (Nat × Nat)
  omega_values : List ℚ
  orf_map : List Nat
deriving DecidableEq, Repr, Inhabited

/-- An ORF entry of the input table: the frame tag plus the descriptor.  The
Python input is a dict from frame tag to a list of descriptors; this list is
that dict flattened in its iteration order. -/
structure OrfEntry where
  frame : Strand
  info : OrfInfo
deriving DecidableEq, Repr, Inhabited

/-- A `Codon`: frame tag, owning ORF descriptor, and the three nucleotide
references.  Nucleotide references are modelled by value (state, position);
during `Sequence` construction — the phase all claims are about — states
never change, so value snapshots agree with Python's object references. -/
structure Codon where
  frame : Strand
  orf : OrfInfo
  nts_in_codon : List Nuc
deriving DecidableEq, Repr, Inhabited

/-- The bases of a codon in storage order (`str(nt)` for each nucleotide). -/
def codonBases (c : Codon) : List Base :=
  c.nts_in_codon.map (·.state)

/-- `Codon.nt_in_pos`: the index of the query nucleotide in the codon.
Python compares by object identity (`query_nt is nt`); positions are unique
within a sequence, so position equality is the value-level equivalent.
Returns `none` when the nucleotide is not in the codon (Python: `None`). -/
def nt_in_pos (c : Codon) (query : Nuc) : Option Nat :=
  c.nts_in_codon.findIdx? (fun n => n.pos = query.pos)

/-- `Codon.mutate_codon`: the codon as strings and a copy with position
`pos_in_codon` replaced by `to_nt`.  `none` when the position is out of range
(Python raises `IndexError` on the list assignment). -/
def mutate_codon (c : Codon) (pos_in_codon : Nat) (to_nt : Base) :
    Option (List Base × List Base) :=
  let codon := codonBases c
  if pos_in_codon < codon.length then
    some (codon, codon.set pos_in_codon to_nt)
  else
    none

/-- `Codon.is_nonsyn`: whether substituting `to_nt` at `pos_in_codon` changes
the encoded amino acid. -/
def is_nonsyn (c : Codon) (pos_in_codon : Nat) (to_nt : Base) : Option Bool := do
  let (codon, mutated) ← mutate_codon c pos_in_codon to_nt
  let aa ← translate_triplet codon
  let aa_mut ← translate_triplet mutated
  pure (¬ aa_mut = aa)

/-- `Codon.creates_stop`: whether substituting `to_nt` at `pos_in_codon`
yields a stop codon. -/
def creates_stop (c : Codon) (pos_in_codon : Nat) (to_nt : Base) : Option Bool := do
  let (_, mutated) ← mutate_codon c pos_in_codon to_nt
  let aa_mut ← translate_triplet mutated
  pure (aa_mut = '*')

/-- `Codon.is_stop`: the stored triplet is `TAA`, `TGA` or `TAG`. -/
def is_stop (c : Codon) : Bool :=
  codonBases c = [.T, .A, .A] ∨ codonBases c = [.T, .G, .A] ∨ codonBases c = [.T, .A, .G]

/-- `Codon.is_start`: the stored triplet is `ATG` and it sits at the ORF's
first coordinate (`coords[0][0]` on `+` frames, `coords[0][1] - 1` on `-`
frames).  The Python `and` short-circuits, so the index accesses are only
reached when the triplet is `ATG`; accessing `coords[0]` on an empty
coordinate list would raise (`none`). -/
def is_start (c : Codon) : Option Bool :=
  if codonBases c ≠ [.A, .T, .G] then some false
  else do
    let first ← c.nts_in_codon.head?
    let c0 ← c.orf.coords.head?
    match c.frame with
    | .plus => pure (first.pos = c0.1)
    | .minus => pure (first.pos + 1 = c0.2)

/-- Python slice `seq[start:stop]` for natural bounds: truncating, never
failing. -/
def pySlice (l : List α) (start stop : Nat) : List α :=
  (l.take stop).drop start

/-- The spliced coding sequence of an ORF: concatenation of the coordinate
slices (`cds.extend(self.nt_sequence[start:stop])`). -/
def splice (seq : List Nuc) (coords : List (Nat × Nat)) : List Nuc :=
  coords.foldl (fun acc c => acc ++ pySlice seq c.1 c.2) []

/-- The chunking loop of `find_codons`: `for i in range(3, len(cds)+1, 3)`
takes `cds[i-3:i]`, i.e. consecutive triples, silently dropping a trailing
partial codon. -/
def chunk3 : List α → List (List α)
  | a :: b :: c :: rest => [a, b, c] :: chunk3 rest
  | _ => []

/-- `Sequence.find_codons`: splice the sequence along the ORF's coordinates,
reverse the spliced view on `-` frames (no complementation happens here: the
codons keep references to the original nucleotides and later read their
genomic `state`), and cut into consecutive triples. -/
def find_codons (frame : Strand) (orf : OrfInfo) (seq : List Nuc) : List Codon :=
  let cds := splice seq orf.coords
  let cds := if frame = .minus then cds.reverse else cds
  (chunk3 cds).map (fun nts => { frame := frame, orf := orf, nts_in_codon := nts })

/-- `reverse_and_complement` from `run_simulation.py`: complement of the
reversed sequence. -/
def reverse_and_complement (seq : List Base) : List Base :=
  seq.reverse.map COMPLEMENT_DICT

/-- `Sequence.get_right_nt`: on circular sequences the source only returns a
value at the last position (it wraps to position 0) — every other position
falls through the missing `else` branch and yields Python `None`; on linear
sequences it indexes `pos_in_seq + 1` (raising past the end, modelled as
`none`). -/
def get_right_nt (nt_sequence : List Nuc) (is_circular : Bool) (pos_in_seq : Nat) :
    Option Nuc :=
  if is_circular then
    if pos_in_seq = nt_sequence.length - 1 then nt_sequence.get? 0
    else none
  else
    nt_sequence.get? (pos_in_seq + 1)

/-- One iteration of the `valid_orfs` loop from `run_simulation.py`, applied
to the accumulated `invalid_orfs` list.  Coordinates are Python ints
(possibly negative), so `Int`.  The `type(...) is not int` check is always
false here and is omitted.  The `and` in the range check binds tighter than
the `or`s, exactly as in the source. -/
def valid_orfs_step (seq_length : Int) (invalid : List (Int × Int)) (orf : Int × Int) :
    List (Int × Int) :=
  let invalid := if orf.1 = orf.2 then invalid ++ [orf] else invalid
  let invalid :=
    if 0 > orf.1 ∨ seq_length < orf.1 ∨ 0 > orf.2 ∨
        (seq_length < orf.2 ∧ orf ∉ invalid) then
      invalid ++ [orf]
    else invalid
  let invalid :=
    if orf.2 > orf.1 ∧ (orf.2 - orf.1) % 3 ≠ 0 then invalid ++ [orf] else invalid
  let invalid :=
    if orf.1 > orf.2 ∧ (orf.1 - orf.2) % 3 ≠ 0 then invalid ++ [orf] else invalid
  invalid

/-- `valid_orfs(orfs, seq_length)`: returns the list of *invalid* ORFs
(duplicates possible); `main` then drops these from the ORF table with a
printed warning and the simulation continues. -/
def valid_orfs (orfs : List (Int × Int)) (seq_length : Int) : List (Int × Int) :=
  orfs.foldl (valid_orfs_step seq_length) []

/-- Hashable Python values usable as dictionary keys in this development:
strings, tuples of ints, numbers, and `None`. -/
inductive PyKey where
  | ks (s : String)
  | kt (t : List Nat)
  | kq (q : ℚ)
  | knone
deriving DecidableEq, Repr

/-- A dynamic model of the Python values stored in the event tree and in the
per-site ω records: `None`, numbers, strings, tuples of ints, lists of
nucleotide references (by position), and dicts (association lists in
insertion order, keys unique). -/
inductive PyVal where
  | pyNone
  | num (q : ℚ)
  | str (s : String)
  | tup (t : List Nat)
  | nlist (ns : List Nat)
  | pdict (entries : List (PyKey × PyVal))
deriving Repr, Inhabited

/-- Association-list lookup (Python `d[k]` read, `None`-free): first entry
with the given key. -/
def alook (entries : List (PyKey × PyVal)) (k : PyKey) : Option PyVal :=
  match entries with
  | [] => none
  | e :: rest => if e.1 = k then some e.2 else alook rest k

/-- Association-list write (Python `d[k] = v`): update in place if the key is
present, otherwise append, preserving insertion order. -/
def aput (entries : List (PyKey × PyVal)) (k : PyKey) (v : PyVal) :
    List (PyKey × PyVal) :=
  match entries with
  | [] => [(k, v)]
  | e :: rest => if e.1 = k then (k, v) :: rest else e :: aput rest k v

/-- Dictionary read `d[k]`: `none` models Python's `KeyError` (and the
`TypeError` of subscripting a non-dict). -/
def dget (v : PyVal) (k : PyKey) : Option PyVal :=
  match v with
  | .pdict entries => alook entries k
  | _ => none

/-- Dictionary write `d[k] = v` (or a single-key `d.update({...})`). -/
def dput (v : PyVal) (k : PyKey) (x : PyVal) : Option PyVal :=
  match v with
  | .pdict entries => some (.pdict (aput entries k x))
  | _ => none

/-- Read along a key path. -/
def dgetPath (v : PyVal) : List PyKey → Option PyVal
  | [] => some v
  | k :: ks => do dgetPath (← dget v k) ks

/-- Apply an update at the end of a key path, re-building the enclosing
dicts (the value-level counterpart of Python's in-place mutation of the
nested dictionary reached by `d[k1][k2]...`). -/
def dmodPath (v : PyVal) : List PyKey → (PyVal → Option PyVal) → Option PyVal
  | [], f => f v
  | k :: ks, f => do
      let inner ← dget v k
      let inner ← dmodPath inner ks f
      dput v k inner

/-- The keys of a dict, in insertion order (`d.keys()`); `[]` for non-dicts. -/
def dictKeys (v : PyVal) : List PyKey :=
  match v with
  | .pdict entries => entries.map Prod.fst
  | _ => []

/-- Python truthiness of the modelled values (`if omega_cat:` etc.). -/
def pyTruthy (v : PyVal) : Bool :=
  match v with
  | .pyNone => false
  | .num q => ¬ q = 0
  | .str s => ¬ s = ""
  | .tup t => ¬ t = []
  | .nlist ns => ¬ ns = []
  | .pdict [] => false
  | .pdict (_ :: _) => true

/-- Using a value as a dictionary key (`k in d`, `d[k]`): strings, tuples,
numbers and `None` are hashable; using a `dict` or a `list` as a key raises
`TypeError` in Python (`none`). -/
def pyToKey (v : PyVal) : Option PyKey :=
  match v with
  | .str s => some (.ks s)
  | .tup t => some (.kt t)
  | .num q => some (.kq q)
  | .pyNone => some .knone
  | .nlist _ => none
  | .pdict _ => none

/-- Coerce to a number (`+=` on a stored probability); non-numbers would be a
Python `TypeError`. -/
def asNum (v : PyVal) : Option ℚ :=
  match v with
  | .num q => some q
  | _ => none

/-- Coerce to a nucleotide list (the `'nt'` entry of an event-tree leaf). -/
def asNList (v : PyVal) : Option (List Nat) :=
  match v with
  | .nlist ns => some ns
  | _ => none

/-- The string key of a base in the event tree (`'A'`, `'C'`, `'G'`, `'T'`). -/
def baseName : Base → String
  | .A => "A"
  | .C => "C"
  | .G => "G"
  | .T => "T"

/-- A nucleotide together with the codons it belongs to (`nt.codons`, in the
order the constructor appended them: ORF iteration order, then codon order). -/
structure NtInfo where
  state : Base
  pos : Nat
  codons : List Codon
deriving DecidableEq, Repr, Inhabited

/-- The `Nuc` view of an `NtInfo` (the object Python passes around). -/
def NtInfo.toNuc (nt : NtInfo) : Nuc :=
  { state := nt.state, pos := nt.pos }

/-- `Sequence.is_start_stop_codon(nt, to_nt)`: `some true` as soon as one of
`nt`'s codons is a STOP, is a START, or would become a STOP after the
substitution; `some false` when no codon qualifies.  `none` models the
Python crashes inside the loop (e.g. `nt_in_pos` returning `None`). -/
def is_start_stop_codon (nt : NtInfo) (to_nt : Base) : Option Bool :=
  go nt.codons
where
  go : List Codon → Option Bool
    | [] => some false
    | c :: rest =>
      if is_stop c then some true
      else do
        let start ← is_start c
        if start then some true
        else do
          let p ← nt_in_pos c nt.toNuc
          let cs ← creates_stop c p to_nt
          if cs then some true else go rest

/-- The random stream: `random.randrange(k)` / `random.choice` of a
`k`-element list is modelled as the head of the stream modulo `k` (an
exhausted stream keeps drawing 0).  Quantifying over streams covers every
possible sequence of draws. -/
abbrev RNG : Type := List Nat

/-- One draw in `[0, k)` (callers guard `k ≠ 0`; Python raises on
`randrange(0)` and on `choice([])`). -/
def draw (g : RNG) (k : Nat) : Nat × RNG :=
  match g with
  | [] => (0, [])
  | x :: xs => (x % k, xs)

/-- The `for codon in nt.codons` loop of `set_substitution_rates` that builds
`chosen_omegas`: per codon, if no codon of the site is START/STOP-touching
for this target, record the drawn ω index (non-synonymous) or `None`
(synonymous) under the codon's `orf_map`; otherwise record the string
`'Stop_start'`.  The source keys the non-synonymous write by
`tuple(codon.orf['orf_map'])` and the other two by `codon.orf['orf_map']`
itself; the input `orf_map` is already a tuple, so both are the same key
(were it a Python `list`, the latter writes would raise `TypeError`). -/
def chosen_omegas_go (nt : NtInfo) (to_nt : Base) :
    List Codon → List (PyKey × PyVal) → RNG → Option (List (PyKey × PyVal) × RNG)
  | [], acc, g => some (acc, g)
  | c :: rest, acc, g => do
      let ss ← is_start_stop_codon nt to_nt
      if ss then
        chosen_omegas_go nt to_nt rest
          (aput acc (.kt c.orf.orf_map) (.str "Stop_start")) g
      else do
        let p ← nt_in_pos c nt.toNuc
        let nonsyn ← is_nonsyn c p to_nt
        if nonsyn then
          let k := c.orf.omega_values.length
          if k = 0 then none
          else
            let (j, g) := draw g k
            chosen_omegas_go nt to_nt rest
              (aput acc (.kt c.orf.orf_map) (.num j)) g
        else
          chosen_omegas_go nt to_nt rest
            (aput acc (.kt c.orf.orf_map) .pyNone) g

/-- The scalar parameters a `Sequence` is constructed with.  `cat_values` is
the μ-category dict (`{'mu1': ..., ...}`) as an association list in insertion
order. -/
structure Params where
  kappa : ℚ
  global_rate : ℚ
  pi : Base → ℚ
  cat_values : List (String × ℚ)
deriving Inhabited

/-- Dict lookup in `cat_values` (`self.cat_values[selected_cat]`). -/
def catLookup (cats : List (String × ℚ)) (name : String) : Option ℚ :=
  match cats with
  | [] => none
  | c :: rest => if c.1 = name then some c.2 else catLookup rest name

/-- What `set_substitution_rates` computes for one target base: the entries
written into `sub_rates`, `my_cat_keys` and `selected_omega` at that key. -/
structure StepOut where
  rate : Option ℚ
  cat : Option String
  omega : PyVal
deriving Inhabited

/-- One iteration of the `for to_nt in NUCLEOTIDES` loop of
`set_substitution_rates`.  For `to_nt = nt.state` the rate and ω record are
`None` and no μ-category is chosen.  Otherwise the rate starts from
`global_rate · π[state]`, is multiplied by κ on transversions, the
`chosen_omegas` record is built (empty `nt.codons` leaves the local variable
`chosen_omegas` unbound on the first such iteration — an
`UnboundLocalError`, hence `none`), one μ-category name is drawn uniformly
from the dict's key list, and the rate is multiplied by its value. -/
def ssr_step (P : Params) (nt : NtInfo) (to_nt : Base) (g : RNG) :
    Option (StepOut × RNG) :=
  if to_nt = nt.state then
    some ({ rate := none, cat := none, omega := .pyNone }, g)
  else
    let r := P.global_rate * P.pi nt.state
    let r := if is_transv nt.state to_nt = some true then r * P.kappa else r
    if nt.codons = [] then none
    else do
      let (entries, g) ← chosen_omegas_go nt to_nt nt.codons [] g
      if P.cat_values = [] then none
      else
        let (ci, g) := draw g P.cat_values.length
        let cname := (P.cat_values.map Prod.fst).getD ci ""
        let cval ← catLookup P.cat_values cname
        some ({ rate := some (r * cval), cat := some cname,
                omega := .pdict entries }, g)

/-- Pointwise update of a finite map on bases (a Python dict entry write). -/
def updB (f : Base → α) (b : Base) (x : α) : Base → α :=
  fun b' => if b' = b then x else f b'

/-- The loop of `set_substitution_rates` over the four target bases,
threading the random stream and accumulating the three per-target maps. -/
def ssr_go (P : Params) (nt : NtInfo) :
    List Base → (Base → Option ℚ) → (Base → Option String) → (Base → PyVal) →
    RNG → Option ((Base → Option ℚ) × (Base → Option String) × (Base → PyVal) × RNG)
  | [], fr, fc, fo, g => some (fr, fc, fo, g)
  | b :: rest, fr, fc, fo, g => do
      let (o, g) ← ssr_step P nt b g
      ssr_go P nt rest (updB fr b o.rate) (updB fc b o.cat) (updB fo b o.omega) g

/-- The bookkeeping `set_substitution_rates` stores on the nucleotide:
`rates`, `cat_keys`, `omega_keys` and the cached total `mutation_rate`. -/
structure NtResult where
  rates : Base → Option ℚ
  catKeys : Base → Option String
  omegaKeys : Base → PyVal
  mutation_rate : ℚ
deriving Inhabited

/-- `Sequence.set_substitution_rates(nt)`: run the per-target loop and cache
the total mutation rate (`get_mutation_rate` sums the non-`None`, non-zero
rates; summing `getD 0` is the same total). -/
def set_substitution_rates (P : Params) (nt : NtInfo) (g : RNG) :
    Option (NtResult × RNG) := do
  let (fr, fc, fo, g) ←
    ssr_go P nt NUCLEOTIDES (fun _ => none) (fun _ => none) (fun _ => .pyNone) g
  some ({ rates := fr, catKeys := fc, omegaKeys := fo,
          mutation_rate := (NUCLEOTIDES.map (fun b => (fr b).getD 0)).sum }, g)

/-- The nucleotide objects of `Sequence.__init__`: one `Nuc` per character. -/
def make_nucleotides (seqB : List Base) : List Nuc :=
  (List.range seqB.length).map (fun i => { state := seqB.getD i .A, pos := i })

/-- All codons of the ORF table, in construction order (ORF iteration order,
then codon order within an ORF). -/
def all_codons (seqB : List Base) (orfs : List OrfEntry) : List Codon :=
  orfs.flatMap (fun e => find_codons e.frame e.info (make_nucleotides seqB))

/-- The nucleotides with their codon lists, as after the codon-assignment
loop of `Sequence.__init__` (`nt.codons.append(codon)` for every codon that
contains the nucleotide, preserving append order). -/
def build_nts (seqB : List Base) (orfs : List OrfEntry) : List NtInfo :=
  (make_nucleotides seqB).map (fun n =>
    { state := n.state, pos := n.pos,
      codons := (all_codons seqB orfs).filter
        (fun c => c.nts_in_codon.any (fun m => m.pos = n.pos)) })

/-- `Sequence.create_orf_map`: a dict keyed by the stringified flattened
coordinates (modelled by the flattened coordinate list itself — `str` is
injective on int lists) whose values are the ORFs' `orf_map` bitmasks. -/
def create_orf_map (orfs : List OrfEntry) : List (PyKey × PyVal) :=
  orfs.foldl (fun m e =>
    aput m (.kt (e.info.coords.flatMap (fun c => [c.1, c.2])))
      (.tup e.info.orf_map)) []

/-- The `orf_map.values()` list consumed by `create_event_tree`. -/
def orf_map_values (orfs : List OrfEntry) : List (List Nat) :=
  (create_orf_map orfs).map (fun e =>
    match e.2 with
    | .tup t => t
    | _ => [])

/-- The `bin_orf_layer` dict of `create_event_tree`: one key per distinct
`orf_map` tuple, each mapping to `{'omega': {}}`, plus the all-zeros tuple
(length = the number of entries so far) mapping to `{'nts': []}`. -/
def bin_orf_layer (vals : List (List Nat)) : List (PyKey × PyVal) :=
  let base := vals.foldl
    (fun d v => aput d (.kt v) (.pdict [(.ks "omega", .pdict [])])) []
  aput base (.kt (List.replicate base.length 0)) (.pdict [(.ks "nts", .nlist [])])

/-- The `cat_dict` of `create_event_tree`: the μ-category names each mapping
to `bin_orf_layer`.  (In Python one shared object; here one equal value per
key.) -/
def cat_dict (cats : List (String × ℚ)) (vals : List (List Nat)) : PyVal :=
  .pdict (cats.foldl (fun d c => aput d (.ks c.1) (.pdict (bin_orf_layer vals))) [])

/-- `Sequence.create_event_tree`: nested dicts
`{'to_nt': {base: {'from_nt': {base: None | cat_dict}}}}`.  Note the
μ-category names sit *directly* under each `from_nt` key — there is no
`'category'` level, and the ω layer is keyed by `orf_map` tuples. -/
def create_event_tree (cats : List (String × ℚ)) (vals : List (List Nat)) : PyVal :=
  .pdict [(.ks "to_nt", .pdict (NUCLEOTIDES.foldl (fun d t =>
    aput d (.ks (baseName t)) (.pdict [(.ks "from_nt", .pdict
      (NUCLEOTIDES.foldl (fun d2 f =>
        aput d2 (.ks (baseName f))
          (if f = t then .pyNone else cat_dict cats vals)) []))])) []))]

/-- One target base of `Sequence.nt_in_event_tree(nt)`: skip the pair when it
is START/STOP-touching, otherwise read
`event_tree['to_nt'][to]['from_nt'][state]['category'][cat]['omega']` — the
`'category'` access raises `KeyError` on the tree `create_event_tree` builds —
then file the nucleotide under its ω record used as a dict key (a dict key
would itself raise `TypeError`).  The state is the tree plus the
`nt_omega_in_tree` record the method builds for the nucleotide. -/
def niet_step (nt : NtInfo) (r : NtResult) (st : PyVal × List (Base × PyVal))
    (to_nt : Base) : Option (PyVal × List (Base × PyVal)) :=
  if to_nt = nt.state then some st
  else do
    let ss ← is_start_stop_codon nt to_nt
    if ss then some st
    else do
      let omega_cat := r.omegaKeys to_nt
      let category ← r.catKeys to_nt
      let bpath := [PyKey.ks "to_nt", PyKey.ks (baseName to_nt),
                    PyKey.ks "from_nt", PyKey.ks (baseName nt.state),
                    PyKey.ks "category", PyKey.ks category, PyKey.ks "omega"]
      let cat_branch ← dgetPath st.1 bpath
      if pyTruthy omega_cat then do
        let omTree := st.2 ++ [(to_nt, omega_cat)]
        let k ← pyToKey omega_cat
        match dget cat_branch k with
        | some leaf => do
            let ntl ← dget leaf (.ks "nt")
            let l ← asNList ntl
            if nt.pos ∈ l then some (st.1, omTree)
            else do
              let tr ← dmodPath st.1 (bpath ++ [k, .ks "nt"])
                (fun _ => some (.nlist (l ++ [nt.pos])))
              some (tr, omTree)
        | none => do
            let tr ← dmodPath st.1 bpath
              (fun ob => dput ob k (.pdict [(.ks "nt", .nlist [nt.pos])]))
            some (tr, omTree)
      else some (st.1, st.2)

/-- `Sequence.nt_in_event_tree(nt)`: the loop over the four target bases. -/
def nt_in_event_tree (tree : PyVal) (nt : NtInfo) (r : NtResult) :
    Option (PyVal × List (Base × PyVal)) :=
  NUCLEOTIDES.foldlM (niet_step nt r) (tree, [])

/-- `sum(self.total_omegas.values())`. -/
def totalOmegasSum (totalOm : List (PyKey × ℚ)) : ℚ :=
  (totalOm.map Prod.snd).sum

/-- `self.total_omegas[combo]` (`KeyError` as `none`). -/
def totalOmegasLook (totalOm : List (PyKey × ℚ)) (k : PyKey) : Option ℚ :=
  match totalOm with
  | [] => none
  | e :: rest => if e.1 = k then some e.2 else totalOmegasLook rest k

/-- `any()` over a tuple of ints: some entry is non-zero. -/
def any_nonzero (l : List Nat) : Bool :=
  l.any (fun x => ¬ x = 0)

/-- The inner per-combo loop of `compute_probability`
(`for omega in combo: ...`), for a combo of the shape the source's inline
comments describe: a tuple of one-hot tuples, one per reading frame.
The accumulator state is `nonsyn_values` (the list of `omega[:-1]` prefixes
seen so far) and `omega_p` (initially 1).  Note `any(nonsyn_values)` in
Python tests the *truthiness* of the member tuples — a non-empty tuple is
truthy whatever it contains — and `omega[-1]` in the unconditional second
`if` raises `IndexError` on an empty slot.  `total_omegas[combo]` is only
read when the first condition holds (`KeyError` as `none`). -/
def omega_prob_go (totalOm : List (PyKey × ℚ)) (combo : List (List Nat)) :
    List (List Nat) → List (List Nat) → ℚ → Option ℚ
  | [], _, omega_p => some omega_p
  | omega :: rest, nonsyn_values, omega_p => do
      let denominator := 1 + totalOmegasSum totalOm
      let nonsyn_values := nonsyn_values ++ [omega.dropLast]
      if ¬ any_nonzero omega then
        omega_prob_go totalOm combo rest nonsyn_values (1 / denominator)
      else if nonsyn_values.any (fun t => ¬ t = []) then do
        let last ← omega.getLast?
        let omega_p ← nonsyn_values.foldlM (fun p nonsyn_val => do
          let p ←
            if any_nonzero nonsyn_val ∧ last = 0 then do
              let t ← totalOmegasLook totalOm (.kt (combo.flatten))
              pure (p * (t / denominator))
            else pure p
          pure (if last > 1 then p * (1 / denominator) else p)) omega_p
        omega_prob_go totalOm combo rest nonsyn_values omega_p
      else
        omega_prob_go totalOm combo rest nonsyn_values (1 / denominator)

/-- The ω-signature probability `compute_probability` computes for one combo
(tuple of one-hot slots): the loop above started with `nonsyn_values = []`
and `omega_p = 1`.  The combo indexes `total_omegas` by its tuple identity;
`PyKey` holds flat int tuples, so the nested tuple is represented by its
flattening (injective on the one-hot shapes at hand, where all slots of a
combo have equal length). -/
def omega_prob (totalOm : List (PyKey × ℚ)) (combo : List (List Nat)) : Option ℚ :=
  omega_prob_go totalOm combo combo [] 1

/-- The same loop run on a key actually present in the tree
`create_event_tree` builds: those keys are *flat* int tuples (`orf_map`
bitmasks), so `for omega in combo` yields ints and the first statement of
the body, `omega[:-1]`, raises `TypeError` — except on the empty tuple,
whose loop body never runs and `omega_p = 1` survives.  Other key shapes do
not occur in the omega layer. -/
def omega_prob_key (totalOm : List (PyKey × ℚ)) (k : PyKey) : Option ℚ :=
  match k with
  | .kt [] => some 1
  | _ => none

/-- `Sequence.compute_probability`, transcribed over the value model of the
event tree.  For each `to_nt`: reset `prob`/`number_of_events` on the three
from-branches, add the transition/transversion share `κ/(1+2κ)` or
`1/(1+2κ)` to each branch's `prob`, then for each μ-category write its
normalized share into `current_branch['category'][mu_cat]` — an access that
raises `KeyError` on the tree `create_event_tree` builds, where the category
names sit directly under the from-branch — and finally walk the ω combos.
Division on ℚ is total here; when the μ values sum to 0 Python raises
`ZeroDivisionError` one statement before the `KeyError`, so the function
fails on that line either way. -/
def compute_probability (tree0 : PyVal) (kappa : ℚ) (cats : List (String × ℚ))
    (totalOm : List (PyKey × ℚ)) : Option PyVal :=
  NUCLEOTIDES.foldlM (fun tree to_nt => do
    let tree ← NUCLEOTIDES.foldlM (fun t nuc =>
      if ¬ nuc = to_nt then
        dmodPath t [.ks "to_nt", .ks (baseName to_nt), .ks "from_nt",
                    .ks (baseName nuc)]
          (fun b => do
            let b ← dput b (.ks "prob") (.num 0)
            dput b (.ks "number_of_events") (.num 0))
      else some t) tree
    NUCLEOTIDES.foldlM (fun tree from_nt =>
      if from_nt = to_nt then some tree
      else do
        let bpath := [PyKey.ks "to_nt", PyKey.ks (baseName to_nt),
                      PyKey.ks "from_nt", PyKey.ks (baseName from_nt)]
        let tree ← dmodPath tree bpath (fun b => do
          let q ← asNum (← dget b (.ks "prob"))
          let add := if is_transv from_nt to_nt = some true then
              kappa / (1 + 2 * kappa)
            else
              1 / (1 + 2 * kappa)
          dput b (.ks "prob") (.num (q + add)))
        cats.foldlM (fun tree mu_cat => do
          let prob := mu_cat.2 / (cats.map Prod.snd).sum
          let tree ← dmodPath tree (bpath ++ [.ks "category", .ks mu_cat.1])
            (fun c => do
              let c ← dput c (.ks "prob") (.num prob)
              dput c (.ks "number_of_events") (.num 0))
          let omegaD ← dgetPath tree
            (bpath ++ [.ks "category", .ks mu_cat.1, .ks "omega"])
          (dictKeys omegaD).foldlM (fun tree combo => do
            let omega_p ← omega_prob_key totalOm combo
            dmodPath tree
              (bpath ++ [.ks "category", .ks mu_cat.1, .ks "omega", combo])
              (fun leaf => do
                let leaf ← dput leaf (.ks "prob") (.num omega_p)
                dput leaf (.ks "number_of_events") (.num 0))) tree) tree) tree)
    tree0

/-- `Sequence.count_events_per_layer`: set each leaf's `number_of_events` to
`len(nt_list)` and roll the sums up the layers.  The very first read,
`self.event_tree['to_nt'][to]['from_nt'][from]['category']`, raises
`KeyError` on the tree `create_event_tree` builds. -/
def count_events_per_layer (tree0 : PyVal) : Option PyVal :=
  NUCLEOTIDES.foldlM (fun tree to_nt => do
    let st ← NUCLEOTIDES.foldlM (fun (st : PyVal × ℚ) from_nt =>
      if ¬ to_nt = from_nt then do
        let bpath := [PyKey.ks "to_nt", PyKey.ks (baseName to_nt),
                      PyKey.ks "from_nt", PyKey.ks (baseName from_nt),
                      PyKey.ks "category"]
        let branch ← dgetPath st.1 bpath
        let st2 ← (dictKeys branch).foldlM (fun (st2 : PyVal × ℚ) cat => do
          let branch_cat ← dgetPath st2.1 (bpath ++ [cat, .ks "omega"])
          let st3 ← (dictKeys branch_cat).foldlM
            (fun (st3 : PyVal × ℚ) omega_tuple => do
              let leaf ← dgetPath st3.1 (bpath ++ [cat, .ks "omega", omega_tuple])
              let nt_list ← asNList (← dget leaf (.ks "nt"))
              let events : ℚ := nt_list.length
              let tree ← dmodPath st3.1 (bpath ++ [cat, .ks "omega", omega_tuple])
                (fun lf => dput lf (.ks "number_of_events") (.num events))
              pure (tree, st3.2 + events)) (st2.1, (0 : ℚ))
          let tree ← dmodPath st3.1 (bpath ++ [cat])
            (fun c => dput c (.ks "number_of_events") (.num st3.2))
          pure (tree, st2.2 + st3.2)) (st.1, (0 : ℚ))
        let tree ← dmodPath st2.1 bpath.dropLast
          (fun b => dput b (.ks "number_of_events") (.num st2.2))
        pure (tree, st.2 + st2.2)
      else pure st) (tree, (0 : ℚ))
    dmodPath st.1 [.ks "to_nt", .ks (baseName to_nt)]
      (fun d => dput d (.ks "number_of_events") (.num st.2))) tree0

/-- The state a fully constructed `Sequence` would carry: the per-nucleotide
bookkeeping, the populated event tree, and the `total_omegas` registry. -/
structure SeqModel where
  results : List NtResult
  event_tree : PyVal
  total_omegas : List (PyKey × ℚ)
deriving Inhabited

/-- `Sequence.__init__`: build nucleotides and codons, build `orf_map` and
the empty event tree, then for each nucleotide run
`set_substitution_rates` and `nt_in_event_tree`, and finish with
`compute_probability` and `count_events_per_layer`.  `total_omegas` starts
as `{}` and is never written: the one call that would populate it
(`self.set_total_omegas(chosen_omegas, nt.codons)`) is commented out in the
source. -/
def sequence_init (seqB : List Base) (orfs : List OrfEntry) (P : Params)
    (g : RNG) : Option SeqModel := do
  let nts := build_nts seqB orfs
  let vals := orf_map_values orfs
  let tree0 := create_event_tree P.cat_values vals
  let st ← nts.foldlM (fun (st : List NtResult × PyVal × RNG) nt => do
      let (r, g) ← set_substitution_rates P nt st.2.2
      let (tree, _) ← nt_in_event_tree st.2.1 nt r
      pure (st.1 ++ [r], tree, g)) (([], tree0, g) : List NtResult × PyVal × RNG)
  let tree ← compute_probability st.2.1 P.kappa P.cat_values []
  let tree ← count_events_per_layer tree
  pure { results := st.1, event_tree := tree, total_omegas := [] }

/-- Association-list write for the `total_omegas` registry. -/
def aput' (entries : List (PyKey × ℚ)) (k : PyKey) (v : ℚ) : List (PyKey × ℚ) :=
  match entries with
  | [] => [(k, v)]
  | e :: rest => if e.1 = k then (k, v) :: rest else e :: aput' rest k v

/-- `Sequence.set_total_omegas(chosen_omegas, codons)`: for each codon index,
read `chosen_omegas[codon_idx]` — an *integer* subscript on the record that
`set_substitution_rates` now keys by `orf_map` tuples, raising `KeyError`
whenever `codons` is non-empty — slice off the final (synonymous) position,
and if any entry is non-zero register the ω product under
`self.total_omegas[chosen_omegas]`, a write whose key is the dict itself
(`TypeError: unhashable`).  The crashes are modelled as `none`. -/
def set_total_omegas (totalOm : List (PyKey × ℚ)) (chosen_omegas : PyVal)
    (codons : List Codon) : Option (List (PyKey × ℚ)) :=
  (List.range codons.length).foldlM (fun acc (codon_idx : Nat) => do
    let row ← dget chosen_omegas (.kq (codon_idx : ℚ))
    let rowt ← match row with
      | .tup t => some t
      | _ => none
    let nonsyn_values := rowt.take (rowt.length - 1)
    if any_nonzero nonsyn_values then
      if (totalOmegasLook acc (.kt nonsyn_values)).isNone then do
        let value ← (nonsyn_values.enum.foldlM (fun v p =>
          if ¬ p.2 = 0 then do
            let c ← codons.get? codon_idx
            let ov ← c.orf.omega_values.get? p.1
            pure (v * ov ^ p.2)
          else pure v) (1 : ℚ))
        let key ← pyToKey chosen_omegas
        pure (aput' acc key value)
      else pure acc
    else pure acc) totalOm


/-- The ORF descriptor of the spec's trivial scenario: one forward ORF over
`[0, 9)` with three ω classes. -/
def trivOrfInfo : OrfInfo :=
  { coords := [(0, 9)], omega_values := [17/100, 48/100, 114/100], orf_map := [1] }

/-- The ORF table of the trivial scenario. -/
def trivOrfs : List OrfEntry := [{ frame := .plus, info := trivOrfInfo }]

/-- The sequence of the spec's trivial scenario: `ATGAAATAG`. -/
def trivSeq : List Base := [.A, .T, .G, .A, .A, .A, .T, .A, .G]

/-- Scalar parameters for the concrete runs: κ = 2, `global_rate` = 1,
uniform π, one μ-category of value 1. -/
def trivParams : Params :=
  { kappa := 2, global_rate := 1, pi := fun _ => 1/4, cat_values := [("mu1", 1)] }

/-- The nucleotides (with codon lists) of the trivial scenario. -/
def trivNts : List NtInfo := build_nts trivSeq trivOrfs

/-- Position 0: the `A` of the START codon `ATG`. -/
def trivNt0 : NtInfo := trivNts.getD 0 default

/-- Position 3: the first `A` of the internal codon `AAA` (admissible
substitution targets). -/
def trivNt3 : NtInfo := trivNts.getD 3 default

/-- An ORF whose spliced length (4) is not a multiple of three, used to probe
`find_codons` on invalid input. -/
def invalidOrfInfo : OrfInfo :=
  { coords := [(0, 4)], omega_values := [1], orf_map := [1] }

theorem chunk3_length {α : Type} : ∀ (l : List α), (chunk3 l).length = l.length / 3
  | [] => by simp [chunk3]
  | [_] => by simp [chunk3]
  | [_, _] => by simp [chunk3]
  | a :: b :: c :: rest => by
      simp only [chunk3, List.length_cons, chunk3_length rest]
      omega

theorem chunk3_mem_length {α : Type} :
    ∀ (l : List α), ∀ x ∈ chunk3 l, x.length = 3
  | [], x, hx => by simp [chunk3] at hx
  | [_], x, hx => by simp [chunk3] at hx
  | [_, _], x, hx => by simp [chunk3] at hx
  | a :: b :: c :: rest, x, hx => by
      simp only [chunk3, List.mem_cons] at hx
      rcases hx with h | h
      · simp [h]
      · exact chunk3_mem_length rest x h

theorem chunk3_flatten {α : Type} :
    ∀ (l : List α), l.length % 3 = 0 → (chunk3 l).flatten = l
  | [], _ => rfl
  | [_], h => by simp at h
  | [_, _], h => by simp at h
  | a :: b :: c :: rest, h => by
      have hr : rest.length % 3 = 0 := by
        simp only [List.length_cons] at h
        omega
      simp [chunk3, chunk3_flatten rest hr]

/-- Claim C10: on a circular sequence, `get_right_nt` returns `None` at every
position strictly before the last, and at the last position it returns the
nucleotide at position 0 (the wrap-around). -/
theorem get_right_nt_circular_none_except_last (nts : List Nuc) (p : Nat)
    (hp : p < nts.length - 1) (hL : 0 < nts.length) :
    get_right_nt nts true p = none ∧
    ∃ n0, nts.head? = some n0 ∧
      get_right_nt nts true (nts.length - 1) = some n0 := by
  constructor
  · have hne : ¬ p = nts.length - 1 := by omega
    unfold get_right_nt
    simp [hne]
  · match nts, hL with
    | n0 :: rest, _ =>
      refine ⟨n0, rfl, ?_⟩
      unfold get_right_nt
      simp

/-- Witness for C10 at the nine-nucleotide trivial sequence, `p = 0`. -/
theorem get_right_nt_circular_none_except_last_witness :
    get_right_nt (make_nucleotides trivSeq) true 0 = none ∧
    ∃ n0, (make_nucleotides trivSeq).head? = some n0 ∧
      get_right_nt (make_nucleotides trivSeq) true
        ((make_nucleotides trivSeq).length - 1) = some n0 :=
  get_right_nt_circular_none_except_last (make_nucleotides trivSeq) 0
    (by decide) (by decide)

/-- Counterexample to claim C8 as stated: on the negative-strand reading of
`ATGAAATAG` the codon triplets are the plain *reverse* of the genomic
subsequence (`GAT AAA GTA`), not its reverse complement (`CTA TTT CAT`). -/
theorem minus_strand_codons_not_reverse_complement :
    (find_codons .minus trivOrfInfo (make_nucleotides trivSeq)).map codonBases
      = [[.G, .A, .T], [.A, .A, .A], [.G, .T, .A]] ∧
    chunk3 (reverse_and_complement trivSeq)
      = [[.C, .T, .A], [.T, .T, .T], [.C, .A, .T]] ∧
    ¬ ([[Base.G, .A, .T], [.A, .A, .A], [.G, .T, .A]]
        = [[Base.C, .T, .A], [.T, .T, .T], [.C, .A, .T]]) :=
  ⟨by rfl, by rfl, by decide⟩

/-- Claim C8, amended: the triplets the codon model evaluates for a
negative-strand ORF are the *reverse* of the spliced genomic subsequence —
no complementation is applied anywhere (the codon operations read each
nucleotide's genomic `state`). -/
theorem minus_strand_codons_reverse_without_complement (orf : OrfInfo)
    (seq : List Nuc) (h : (splice seq orf.coords).length % 3 = 0) :
    (find_codons .minus orf seq).flatMap codonBases
      = (splice seq orf.coords).reverse.map Nuc.state := by
  have hlen : (splice seq orf.coords).reverse.length % 3 = 0 := by
    simpa using h
  have hfc : find_codons .minus orf seq
      = (chunk3 (splice seq orf.coords).reverse).map
          (fun nts => { frame := .minus, orf := orf, nts_in_codon := nts }) := by
    simp [find_codons]
  rw [hfc, List.flatMap_def, List.map_map]
  have hcomp : (codonBases ∘ fun nts =>
      ({ frame := .minus, orf := orf, nts_in_codon := nts } : Codon))
      = fun nts => nts.map Nuc.state := rfl
  rw [hcomp, ← List.map_flatten, chunk3_flatten _ hlen]

/-- Witness for the amended C8 at the trivial sequence read as a
negative-strand ORF. -/
theorem minus_strand_codons_reverse_without_complement_witness :
    (find_codons .minus trivOrfInfo (make_nucleotides trivSeq)).flatMap codonBases
      = (splice (make_nucleotides trivSeq) trivOrfInfo.coords).reverse.map Nuc.state :=
  minus_strand_codons_reverse_without_complement trivOrfInfo
    (make_nucleotides trivSeq) (by rfl)

/-- Counterexample to claim C9 as stated: codon resolution does not fail on an
ORF whose spliced length (4) is not a multiple of three — `find_codons`
returns the single complete codon `ATG` and silently drops the leftover
nucleotide. -/
theorem find_codons_accepts_invalid_orf :
    (find_codons .plus invalidOrfInfo (make_nucleotides trivSeq)).map codonBases
      = [[.A, .T, .G]] ∧
    ¬ (splice (make_nucleotides trivSeq) invalidOrfInfo.coords).length % 3 = 0 :=
  ⟨by rfl, by decide⟩

theorem mem_ite_append {c : Prop} [Decidable c] {inv : List (Int × Int)}
    {orf a : Int × Int} (h : orf ∈ inv) :
    orf ∈ if c then inv ++ [a] else inv := by
  split <;> simp [h]

theorem mem_valid_orfs_step (L : Int) (inv : List (Int × Int)) (a orf : Int × Int)
    (h : orf ∈ inv) : orf ∈ valid_orfs_step L inv a := by
  unfold valid_orfs_step
  exact mem_ite_append (mem_ite_append (mem_ite_append (mem_ite_append h)))

theorem mem_valid_orfs_step_self (L : Int) (inv : List (Int × Int)) (orf : Int × Int)
    (hbad : (orf.2 > orf.1 ∧ (orf.2 - orf.1) % 3 ≠ 0) ∨
            (orf.1 > orf.2 ∧ (orf.1 - orf.2) % 3 ≠ 0) ∨
            0 > orf.1 ∨ L < orf.1 ∨ 0 > orf.2 ∨ L < orf.2) :
    orf ∈ valid_orfs_step L inv orf := by
  unfold valid_orfs_step
  dsimp only
  rcases hbad with h3f | h3r | h1 | h2 | h4 | h5
  · apply mem_ite_append
    rw [if_pos h3f]
    simp
  · rw [if_pos h3r]
    simp
  · apply mem_ite_append
    apply mem_ite_append
    rw [if_pos (Or.inl h1)]
    simp
  · apply mem_ite_append
    apply mem_ite_append
    rw [if_pos (Or.inr (Or.inl h2))]
    simp
  · apply mem_ite_append
    apply mem_ite_append
    rw [if_pos (Or.inr (Or.inr (Or.inl h4)))]
    simp
  · by_cases hin : orf ∈ (if orf.1 = orf.2 then inv ++ [orf] else inv)
    · exact mem_ite_append (mem_ite_append (mem_ite_append hin))
    · apply mem_ite_append
      apply mem_ite_append
      rw [if_pos (Or.inr (Or.inr (Or.inr ⟨h5, hin⟩)))]
      simp

theorem mem_valid_orfs_aux (L : Int) (orf : Int × Int)
    (hbad : (orf.2 > orf.1 ∧ (orf.2 - orf.1) % 3 ≠ 0) ∨
            (orf.1 > orf.2 ∧ (orf.1 - orf.2) % 3 ≠ 0) ∨
            0 > orf.1 ∨ L < orf.1 ∨ 0 > orf.2 ∨ L < orf.2) :
    ∀ (l : List (Int × Int)) (inv : List (Int × Int)),
      orf ∈ inv ∨ orf ∈ l → orf ∈ l.foldl (valid_orfs_step L) inv
  | [], inv, h => by
      rcases h with h | h
      · exact h
      · simp at h
  | a :: rest, inv, h => by
      rcases h with h | h
      · exact mem_valid_orfs_aux L orf hbad rest _
          (Or.inl (mem_valid_orfs_step L inv a orf h))
      · rcases List.mem_cons.mp h with rfl | h
        · exact mem_valid_orfs_aux L orf hbad rest _
            (Or.inl (mem_valid_orfs_step_self L inv orf hbad))
        · exact mem_valid_orfs_aux L orf hbad rest _ (Or.inr h)

/-- Claim C9, amended: `find_codons` itself never fails — it yields
`⌊spliced length / 3⌋` complete codons whatever the ORF, truncating
out-of-range coordinates and dropping a trailing partial codon — while ORF
validation happens at ingest: `valid_orfs` flags every ORF whose length is
not a multiple of three or whose coordinates fall outside `[0, L]`, and
`main` drops the flagged ORFs with a warning. -/
theorem find_codons_truncates_and_valid_orfs_flags :
    (∀ (frame : Strand) (orf : OrfInfo) (seq : List Nuc),
       (find_codons frame orf seq).length = (splice seq orf.coords).length / 3 ∧
       ∀ c ∈ find_codons frame orf seq, c.nts_in_codon.length = 3) ∧
    (∀ (orfs : List (Int × Int)) (L : Int) (orf : Int × Int), orf ∈ orfs →
       ((orf.2 > orf.1 ∧ (orf.2 - orf.1) % 3 ≠ 0) ∨
        (orf.1 > orf.2 ∧ (orf.1 - orf.2) % 3 ≠ 0) ∨
        0 > orf.1 ∨ L < orf.1 ∨ 0 > orf.2 ∨ L < orf.2) →
       orf ∈ valid_orfs orfs L) := by
  constructor
  · intro frame orf seq
    constructor
    · unfold find_codons
      split
      · simp [chunk3_length]
      · simp [chunk3_length]
    · intro c hc
      have hc' : c ∈ (chunk3 (if frame = .minus then (splice seq orf.coords).reverse
          else splice seq orf.coords)).map
          (fun nts => ({ frame := frame, orf := orf, nts_in_codon := nts } : Codon)) := by
        simpa [find_codons] using hc
      rcases List.mem_map.mp hc' with ⟨nts, hmem, rfl⟩
      exact chunk3_mem_length _ nts hmem
  · intro orfs L orf hmem hbad
    exact mem_valid_orfs_aux L orf hbad orfs [] (Or.inr hmem)

/-- Witness for the amended C9: the invalid ORF `(0, 4)` resolves to one
codon without failure, and `valid_orfs` flags it on a length-9 sequence. -/
theorem find_codons_truncates_and_valid_orfs_flags_witness :
    ((find_codons .plus invalidOrfInfo (make_nucleotides trivSeq)).length
       = (splice (make_nucleotides trivSeq) invalidOrfInfo.coords).length / 3) ∧
    ((0, 4) : Int × Int) ∈ valid_orfs [(0, 4)] 9 :=
  ⟨(find_codons_truncates_and_valid_orfs_flags.1 .plus invalidOrfInfo
      (make_nucleotides trivSeq)).1,
   find_codons_truncates_and_valid_orfs_flags.2 [(0, 4)] 9 (0, 4)
     (by decide) (by decide)⟩

/-- Claim C1: `Sequence` construction never reaches the claimed invariant
state.  On the spec's own trivial scenario (`ATGAAATAG`, one forward ORF over
`[0, 9)`) the constructor aborts: at the first nucleotide with an admissible
substitution, `nt_in_event_tree` indexes
`event_tree[...]['category']`, a key `create_event_tree` never creates
(the μ-categories are nested directly under the from-branch), raising
`KeyError`.  No nucleotide is ever filed into a leaf, so the leaf totals
the claim quantifies over do not exist. -/
theorem trivial_sequence_construction_aborts :
    sequence_init trivSeq trivOrfs trivParams [] = none := by
  rfl

/-- Claim C7: `compute_probability` never completes.  On the tree
`create_event_tree` builds (here with one μ-category and one ORF) it raises
`KeyError('category')` at the very first from-branch, before any per-branch
transition/transversion probability is in place, so the claimed
`κ/(1+2κ)` vs `1/(1+2κ)` labelling of the from-branches never exists. -/
theorem compute_probability_missing_category_layer_aborts :
    compute_probability
      (create_event_tree trivParams.cat_values (orf_map_values trivOrfs))
      trivParams.kappa trivParams.cat_values [] = none := by
  rfl

/-- Claim C3: the ω-leaf probability the code computes disagrees with the
claimed `1/denom` on an all-synonymous signature.  With
`total_omegas = {((1,0,0),) ↦ 2}` (so `denom = 3`) and the one-ORF
synonymous signature `((0,0,1),)`, the loop leaves `omega_p = 1`: the
`# Synonymous` else-branch that would assign `1/denom` is unreachable,
because `any(nonsyn_values)` tests the truthiness of non-empty tuples and
is always `True`. -/
theorem compute_probability_all_syn_combo_prob_one :
    omega_prob [(.kt [1, 0, 0], 2)] [[0, 0, 1]] = some 1 ∧
    ¬ ((1 : ℚ) = 1 / (1 + 2)) :=
  ⟨by rfl, by norm_num⟩

/-- Claim C4: the `total_omegas` registry is never populated.  At the trivial
scenario's position 3 the rates pass produces the non-synonymous ω record
`{(1,): 0}` for target `G`, yet `set_total_omegas` — whose only call site is
commented out in `Sequence.__init__` — cannot even process that record: it
subscripts `chosen_omegas[codon_idx]` with an integer position
(`KeyError`: the record is keyed by `orf_map` tuples), and its final write
would use the record dict itself as registry key (`TypeError`). -/
theorem total_omegas_registration_dead_and_incompatible :
    (set_substitution_rates trivParams trivNt3 []).map
        (fun rg => rg.1.omegaKeys .G) = some (.pdict [(.kt [1], .num 0)]) ∧
    set_total_omegas [] (.pdict [(.kt [1], .num 0)]) trivNt3.codons = none :=
  ⟨by rfl, by rfl⟩

/-- Modelled from the spec: "each slot is a one-hot vector of length
(number of ω classes + 1)" — the well-formedness predicate claim C2 asserts
of every stored slot value.  A slot satisfies it only if it is a tuple of
the stated length containing a single 1 and otherwise 0s. -/
def one_hot_slot (len : Nat) (v : PyVal) : Bool :=
  match v with
  | .tup l => l.length = len ∧ l.count 1 = 1 ∧ ∀ x ∈ l, x = 0 ∨ x = 1
  | _ => false

/-- Counterexample to claim C2 as stated: at the trivial scenario's position
3, target `G` (a non-synonymous change in an ORF with 3 ω classes), the
stored ω record is the dict `{(1,): 0}` holding the drawn *index* — its slot
value is not a one-hot vector of length 4 (it is not a tuple at all). -/
theorem omega_record_slot_not_one_hot :
    (set_substitution_rates trivParams trivNt3 []).map
        (fun rg => rg.1.omegaKeys .G) = some (.pdict [(.kt [1], .num 0)]) ∧
    one_hot_slot (3 + 1) (.num 0) = false :=
  ⟨by rfl, by rfl⟩

/-- Counterexample to claim C5 as stated: at the trivial scenario's position
0 (the `A` of the START codon) with target `C`, the pair is assigned the
`Stop_start` sentinel, but the stored rate is *not* set to `None` — it keeps
its `global_rate·π·κ·μ` value. -/
theorem stop_start_pair_rate_not_null :
    (set_substitution_rates trivParams trivNt0 []).map
        (fun rg => ((rg.1.rates .C).isSome, rg.1.omegaKeys .C))
      = some (true, .pdict [(.kt [1], .str "Stop_start")]) :=
  by rfl

theorem updB_ne {α : Type} (f : Base → α) (b : Base) (x : α) (b' : Base)
    (h : ¬ b' = b) : updB f b x b' = f b' := by
  simp [updB, h]

theorem updB_eq {α : Type} (f : Base → α) (b : Base) (x : α) : updB f b x b = x := by
  simp [updB]

theorem ssr_go_not_mem (P : Params) (nt : NtInfo) :
    ∀ (l : List Base) (fr : Base → Option ℚ) (fc : Base → Option String)
      (fo : Base → PyVal) (g : RNG) out,
      ssr_go P nt l fr fc fo g = some out → ∀ b, b ∉ l →
      out.1 b = fr b ∧ out.2.1 b = fc b ∧ out.2.2.1 b = fo b
  | [], fr, fc, fo, g, out, h, b, hb => by
      simp only [ssr_go, Option.some.injEq] at h
      subst h
      exact ⟨rfl, rfl, rfl⟩
  | x :: rest, fr, fc, fo, g, out, h, b, hb => by
      simp only [ssr_go] at h
      cases hstep : ssr_step P nt x g with
      | none => rw [hstep] at h; cases h
      | some og =>
        rw [hstep] at h
        have hbx : ¬ b = x := fun hbx => hb (hbx ▸ List.mem_cons_self x rest)
        have hrest : b ∉ rest := fun hr => hb (List.mem_cons_of_mem x hr)
        have := ssr_go_not_mem P nt rest _ _ _ _ out h b hrest
        simpa [updB_ne _ _ _ _ hbx] using this

theorem ssr_go_mem (P : Params) (nt : NtInfo) :
    ∀ (l : List Base) (fr : Base → Option ℚ) (fc : Base → Option String)
      (fo : Base → PyVal) (g : RNG) out, l.Nodup →
      ssr_go P nt l fr fc fo g = some out → ∀ b ∈ l,
      ∃ g1 g2 o, ssr_step P nt b g1 = some (o, g2) ∧
        out.1 b = o.rate ∧ out.2.1 b = o.cat ∧ out.2.2.1 b = o.omega
  | [], fr, fc, fo, g, out, hnd, h, b, hb => by simp at hb
  | x :: rest, fr, fc, fo, g, out, hnd, h, b, hb => by
      simp only [ssr_go] at h
      cases hstep : ssr_step P nt x g with
      | none => rw [hstep] at h; cases h
      | some og =>
        rw [hstep] at h
        rcases List.mem_cons.mp hb with rfl | hbr
        · have hnotin : b ∉ rest := (List.nodup_cons.mp hnd).1
          have hpres := ssr_go_not_mem P nt rest _ _ _ _ out h b hnotin
          exact ⟨g, og.2, og.1, by rw [hstep], by
              rw [hpres.1, updB_eq], by rw [hpres.2.1, updB_eq], by
              rw [hpres.2.2, updB_eq]⟩
        · exact ssr_go_mem P nt rest _ _ _ _ out (List.nodup_cons.mp hnd).2 h b hbr

theorem set_substitution_rates_lookup (P : Params) (nt : NtInfo) (g gf : RNG)
    (r : NtResult) (h : set_substitution_rates P nt g = some (r, gf)) (b : Base) :
    ∃ g1 g2 o, ssr_step P nt b g1 = some (o, g2) ∧
      r.rates b = o.rate ∧ r.catKeys b = o.cat ∧ r.omegaKeys b = o.omega := by
  cases hgo : ssr_go P nt NUCLEOTIDES (fun _ => none) (fun _ => none)
      (fun _ => .pyNone) g with
  | none => rw [set_substitution_rates, hgo] at h; cases h
  | some out =>
    obtain ⟨fr, fc, fo, gx⟩ := out
    have hmem : b ∈ NUCLEOTIDES := by cases b <;> simp [NUCLEOTIDES]
    have hnd : NUCLEOTIDES.Nodup := by decide
    obtain ⟨g1, g2, o, hstep, h1, h2, h3⟩ :=
      ssr_go_mem P nt NUCLEOTIDES _ _ _ g _ hnd hgo b hmem
    rw [set_substitution_rates, hgo] at h
    simp only [Option.bind_some] at h
    have h' := Option.some.inj h
    have hr := congrArg Prod.fst h'
    dsimp at hr h1 h2 h3
    subst hr
    exact ⟨g1, g2, o, hstep, h1, h2, h3⟩

theorem ssr_step_spec (P : Params) (nt : NtInfo) (b : Base) (g g2 : RNG)
    (o : StepOut) (hb : ¬ b = nt.state) (h : ssr_step P nt b g = some (o, g2)) :
    ∃ entries g1, chosen_omegas_go nt b nt.codons [] g = some (entries, g1) ∧
      o.omega = .pdict entries ∧
      ∃ name v, o.cat = some name ∧ catLookup P.cat_values name = some v ∧
        o.rate = some ((if is_transv nt.state b = some true
            then P.global_rate * P.pi nt.state * P.kappa
            else P.global_rate * P.pi nt.state) * v) := by
  rw [ssr_step, if_neg hb] at h
  by_cases hcod : nt.codons = []
  · rw [if_pos hcod] at h; cases h
  · rw [if_neg hcod] at h
    cases hcog : chosen_omegas_go nt b nt.codons [] g with
    | none => rw [hcog] at h; cases h
    | some eg =>
      obtain ⟨entries, g1⟩ := eg
      rw [hcog] at h
      simp only [Option.bind_eq_bind, Option.some_bind] at h
      by_cases hcats : P.cat_values = []
      · rw [if_pos hcats] at h; cases h
      · rw [if_neg hcats] at h
        cases hd : draw g1 P.cat_values.length with
        | mk ci gd =>
          rw [hd] at h
          dsimp only at h
          cases hcl : catLookup P.cat_values
              ((P.cat_values.map Prod.fst).getD ci "") with
          | none => rw [hcl] at h; cases h
          | some v =>
            rw [hcl] at h
            simp only [Option.bind_eq_bind, Option.some_bind] at h
            have h' := Option.some.inj h
            have ho := congrArg Prod.fst h'
            dsimp at ho
            subst ho
            exact ⟨entries, g1, rfl, rfl,
              (P.cat_values.map Prod.fst).getD ci "", v, rfl, hcl, rfl⟩

/-- Claim C6: the stored per-site rate for an admissible target `b` equals
`global_rate · π[nt.state] · (κ if transversion else 1) · μ[cat_keys[b]]`,
with no ω factor — for every parameter set, nucleotide, and random stream on
which `set_substitution_rates` succeeds. -/
theorem rate_formula_pi_kappa_mu (P : Params) (nt : NtInfo) (b : Base)
    (g gf : RNG) (r : NtResult) (hb : ¬ b = nt.state)
    (hs : set_substitution_rates P nt g = some (r, gf)) :
    ∃ name v, r.catKeys b = some name ∧ catLookup P.cat_values name = some v ∧
      r.rates b = some (P.global_rate * P.pi nt.state *
        (if is_transv nt.state b = some true then P.kappa else 1) * v) := by
  obtain ⟨g1, g2, o, hstep, h1, h2, h3⟩ :=
    set_substitution_rates_lookup P nt g gf r hs b
  obtain ⟨entries, g1', _, _, name, v, hc, hcl, hr⟩ :=
    ssr_step_spec P nt b g1 g2 o hb hstep
  refine ⟨name, v, by rw [h2, hc], hcl, ?_⟩
  rw [h1, hr]
  by_cases ht : is_transv nt.state b = some true
  · simp [ht]
  · simp [ht]

/-- The concrete successful run of `set_substitution_rates` at the trivial
scenario's position 3 with the empty stream. -/
def trivNt3run : NtResult × RNG :=
  (set_substitution_rates trivParams trivNt3 []).getD default

/-- Witness for C6 at the trivial scenario, position 3, target `C`. -/
theorem rate_formula_pi_kappa_mu_witness :
    ∃ name v, trivNt3run.1.catKeys .C = some name ∧
      catLookup trivParams.cat_values name = some v ∧
      trivNt3run.1.rates .C = some (trivParams.global_rate *
        trivParams.pi trivNt3.state *
        (if is_transv trivNt3.state .C = some true then trivParams.kappa else 1) * v) :=
  rate_formula_pi_kappa_mu trivParams trivNt3 .C [] trivNt3run.2 trivNt3run.1
    (by decide) (by rfl)

theorem aput_forall {P : PyKey × PyVal → Prop} :
    ∀ (entries : List (PyKey × PyVal)) (k : PyKey) (v : PyVal),
      (∀ kv ∈ entries, P kv) → P (k, v) → ∀ kv ∈ aput entries k v, P kv
  | [], k, v, _, hkv, kv, hm => by
      simp only [aput, List.mem_singleton] at hm
      subst hm
      exact hkv
  | e :: rest, k, v, hall, hkv, kv, hm => by
      simp only [aput] at hm
      split at hm
      · rcases List.mem_cons.mp hm with rfl | hm
        · exact hkv
        · exact hall kv (List.mem_cons_of_mem e hm)
      · rcases List.mem_cons.mp hm with rfl | hm
        · exact hall _ (List.mem_cons_self _ rest)
        · exact aput_forall rest k v
            (fun x hx => hall x (List.mem_cons_of_mem _ hx)) hkv kv hm

theorem aput_ne_nil : ∀ (entries : List (PyKey × PyVal)) (k : PyKey) (v : PyVal),
    ¬ aput entries k v = []
  | [], k, v => by simp [aput]
  | e :: rest, k, v => by
      simp only [aput]
      split <;> simp

theorem aput_append_of_not_mem :
    ∀ (entries : List (PyKey × PyVal)) (k : PyKey) (v : PyVal),
      ¬ k ∈ entries.map Prod.fst → aput entries k v = entries ++ [(k, v)]
  | [], k, v, _ => rfl
  | e :: rest, k, v, hk => by
      have hek : ¬ e.1 = k := by
        intro he
        exact hk (by simp [← he])
      simp only [aput, if_neg hek, List.cons_append, List.cons.injEq, true_and]
      exact aput_append_of_not_mem rest k v (fun hm => hk (by simp [hm]))

theorem chosen_omegas_go_stop (nt : NtInfo) (to_nt : Base)
    (hss : is_start_stop_codon nt to_nt = some true) :
    ∀ (cods : List Codon) (acc : List (PyKey × PyVal)) (g : RNG),
      chosen_omegas_go nt to_nt cods acc g =
        some (cods.foldl (fun a c =>
          aput a (.kt c.orf.orf_map) (.str "Stop_start")) acc, g)
  | [], acc, g => rfl
  | c :: rest, acc, g => by
      simp only [chosen_omegas_go, hss, Option.bind_eq_bind, Option.some_bind,
        if_true, List.foldl_cons]
      exact chosen_omegas_go_stop nt to_nt hss rest _ g

theorem stop_foldl_prop (codons0 : List Codon) :
    ∀ (cods : List Codon) (acc : List (PyKey × PyVal)),
      (∀ c ∈ cods, c ∈ codons0) →
      (∀ kv ∈ acc, kv.2 = PyVal.str "Stop_start" ∧
        ∃ c ∈ codons0, kv.1 = PyKey.kt c.orf.orf_map) →
      ∀ kv ∈ cods.foldl (fun a c =>
          aput a (.kt c.orf.orf_map) (.str "Stop_start")) acc,
        kv.2 = PyVal.str "Stop_start" ∧
          ∃ c ∈ codons0, kv.1 = PyKey.kt c.orf.orf_map
  | [], acc, hsub, hacc => hacc
  | c :: rest, acc, hsub, hacc => by
      simp only [List.foldl_cons]
      refine stop_foldl_prop codons0 rest _
        (fun c' hc' => hsub c' (List.mem_cons_of_mem c hc')) ?_
      exact aput_forall acc _ _ hacc
        ⟨rfl, c, hsub c (List.mem_cons_self c rest), rfl⟩

theorem stop_foldl_ne_nil :
    ∀ (cods : List Codon) (acc : List (PyKey × PyVal)),
      (¬ acc = [] ∨ ¬ cods = []) →
      ¬ cods.foldl (fun a c =>
          aput a (.kt c.orf.orf_map) (.str "Stop_start")) acc = []
  | [], acc, h => by
      rcases h with h | h
      · simpa using h
      · simp at h
  | c :: rest, acc, h => by
      simp only [List.foldl_cons]
      exact stop_foldl_ne_nil rest _ (Or.inl (aput_ne_nil acc _ _))

/-- Claim C5, amended: for a START/STOP-touching pair `(nt, b)` the code
assigns the `Stop_start` sentinel under every containing codon's `orf_map`
and `nt_in_event_tree` skips the pair (nothing is filed for it), but the
stored rate for `b` is *not* set to `None` — it keeps its computed value. -/
theorem stop_start_pair_sentinel_and_skipped (P : Params) (nt : NtInfo) (b : Base)
    (g gf : RNG) (r : NtResult) (hb : ¬ b = nt.state)
    (hss : is_start_stop_codon nt b = some true)
    (hcod : ¬ nt.codons = [])
    (hs : set_substitution_rates P nt g = some (r, gf)) :
    (∃ entries, r.omegaKeys b = .pdict entries ∧ ¬ entries = [] ∧
       ∀ kv ∈ entries, kv.2 = PyVal.str "Stop_start" ∧
         ∃ c ∈ nt.codons, kv.1 = PyKey.kt c.orf.orf_map) ∧
    (∃ q, r.rates b = some q) ∧
    (∀ (tree : PyVal) (acc : List (Base × PyVal)) (rr : NtResult),
       niet_step nt rr (tree, acc) b = some (tree, acc)) := by
  obtain ⟨g1, g2, o, hstep, h1, h2, h3⟩ :=
    set_substitution_rates_lookup P nt g gf r hs b
  obtain ⟨entries, g1', hcog, homega, name, v, hc, hcl, hr⟩ :=
    ssr_step_spec P nt b g1 g2 o hb hstep
  rw [chosen_omegas_go_stop nt b hss nt.codons [] g1] at hcog
  have he := congrArg Prod.fst (Option.some.inj hcog)
  dsimp at he
  refine ⟨⟨entries, by rw [h3, homega], ?_, ?_⟩, ⟨_, by rw [h1, hr]⟩, ?_⟩
  · rw [← he]
    exact stop_foldl_ne_nil nt.codons [] (Or.inr hcod)
  · rw [← he]
    exact stop_foldl_prop nt.codons nt.codons [] (fun c hc => hc) (by simp)
  · intro tree acc rr
    simp [niet_step, hb, hss]

/-- The concrete successful run of `set_substitution_rates` at the trivial
scenario's position 0 with the empty stream. -/
def trivNt0run : NtResult × RNG :=
  (set_substitution_rates trivParams trivNt0 []).getD default

/-- Witness for the amended C5 at the trivial scenario's START codon,
position 0, target `C`. -/
theorem stop_start_pair_sentinel_and_skipped_witness :
    (∃ entries, trivNt0run.1.omegaKeys .C = .pdict entries ∧ ¬ entries = [] ∧
       ∀ kv ∈ entries, kv.2 = PyVal.str "Stop_start" ∧
         ∃ c ∈ trivNt0.codons, kv.1 = PyKey.kt c.orf.orf_map) ∧
    (∃ q, trivNt0run.1.rates .C = some q) ∧
    (∀ (tree : PyVal) (acc : List (Base × PyVal)) (rr : NtResult),
       niet_step trivNt0 rr (tree, acc) .C = some (tree, acc)) :=
  stop_start_pair_sentinel_and_skipped trivParams trivNt0 .C [] trivNt0run.2
    trivNt0run.1 (by decide) (by rfl) (by decide) (by rfl)

theorem draw_lt (g : RNG) (k : Nat) (hk : 0 < k) : (draw g k).1 < k := by
  cases g with
  | nil => simpa [draw] using hk
  | cons x xs => simpa [draw] using Nat.mod_lt x hk

theorem chosen_omegas_go_prop (nt : NtInfo) (to_nt : Base)
    (P : PyKey × PyVal → Prop)
    (hss : is_start_stop_codon nt to_nt = some false) :
    ∀ (cods : List Codon) (acc : List (PyKey × PyVal)) (g : RNG) out,
      chosen_omegas_go nt to_nt cods acc g = some out →
      (∀ kv ∈ acc, P kv) →
      (∀ c ∈ cods, ∀ p, nt_in_pos c nt.toNuc = some p →
        ((is_nonsyn c p to_nt = some true → ∀ j : Nat,
            j < c.orf.omega_values.length → P (.kt c.orf.orf_map, .num j)) ∧
         (is_nonsyn c p to_nt = some false → P (.kt c.orf.orf_map, .pyNone)))) →
      ∀ kv ∈ out.1, P kv
  | [], acc, g, out, hout, hacc, hins => by
      simp only [chosen_omegas_go, Option.some.injEq] at hout
      subst hout
      exact hacc
  | c :: rest, acc, g, out, hout, hacc, hins => by
      simp only [chosen_omegas_go, hss, Option.bind_eq_bind, Option.some_bind,
        Bool.false_eq_true, if_false] at hout
      cases hp : nt_in_pos c nt.toNuc with
      | none => rw [hp] at hout; cases hout
      | some p =>
        rw [hp] at hout
        simp only [Option.some_bind] at hout
        cases hns : is_nonsyn c p to_nt with
        | none => rw [hns] at hout; cases hout
        | some ns =>
          rw [hns] at hout
          simp only [Option.some_bind] at hout
          have hmem := List.mem_cons_self c rest
          have hrest : ∀ c' ∈ rest, ∀ p', nt_in_pos c' nt.toNuc = some p' →
              ((is_nonsyn c' p' to_nt = some true → ∀ j : Nat,
                  j < c'.orf.omega_values.length →
                  P (.kt c'.orf.orf_map, .num j)) ∧
               (is_nonsyn c' p' to_nt = some false →
                  P (.kt c'.orf.orf_map, .pyNone))) :=
            fun c' hc' => hins c' (List.mem_cons_of_mem c hc')
          cases ns with
          | true =>
            rw [if_pos rfl] at hout
            by_cases hk : c.orf.omega_values.length = 0
            · rw [if_pos hk] at hout; cases hout
            · rw [if_neg hk] at hout
              refine chosen_omegas_go_prop nt to_nt P hss rest _ _ out hout ?_ hrest
              refine aput_forall acc _ _ hacc ?_
              exact (hins c hmem p hp).1 hns _
                (draw_lt g _ (Nat.pos_of_ne_zero hk))
          | false =>
            rw [if_neg (by simp)] at hout
            refine chosen_omegas_go_prop nt to_nt P hss rest _ _ out hout ?_ hrest
            exact aput_forall acc _ _ hacc ((hins c hmem p hp).2 hns)

theorem chosen_omegas_go_keys (nt : NtInfo) (to_nt : Base)
    (hss : is_start_stop_codon nt to_nt = some false) :
    ∀ (cods : List Codon) (acc : List (PyKey × PyVal)) (g : RNG) out,
      chosen_omegas_go nt to_nt cods acc g = some out →
      (acc.map Prod.fst ++ cods.map (fun c => PyKey.kt c.orf.orf_map)).Nodup →
      out.1.map Prod.fst
        = acc.map Prod.fst ++ cods.map (fun c => PyKey.kt c.orf.orf_map)
  | [], acc, g, out, hout, hnd => by
      simp only [chosen_omegas_go, Option.some.injEq] at hout
      subst hout
      simp
  | c :: rest, acc, g, out, hout, hnd => by
      simp only [chosen_omegas_go, hss, Option.bind_eq_bind, Option.some_bind,
        Bool.false_eq_true, if_false] at hout
      cases hp : nt_in_pos c nt.toNuc with
      | none => rw [hp] at hout; cases hout
      | some p =>
        rw [hp] at hout
        simp only [Option.some_bind] at hout
        cases hns : is_nonsyn c p to_nt with
        | none => rw [hns] at hout; cases hout
        | some ns =>
          rw [hns] at hout
          simp only [Option.some_bind] at hout
          have hkey : ¬ PyKey.kt c.orf.orf_map ∈ acc.map Prod.fst := by
            have hd := (List.nodup_append.mp (by
              simpa [List.map_cons] using hnd)).2.2
            intro hmem
            exact hd hmem (List.mem_cons_self _ _)
          have hnd' : ((acc.map Prod.fst ++ [PyKey.kt c.orf.orf_map]) ++
              rest.map (fun c => PyKey.kt c.orf.orf_map)).Nodup := by
            rw [← List.append_cons]
            simpa [List.map_cons] using hnd
          cases ns with
          | true =>
            rw [if_pos rfl] at hout
            by_cases hk : c.orf.omega_values.length = 0
            · rw [if_pos hk] at hout; cases hout
            · rw [if_neg hk] at hout
              have := chosen_omegas_go_keys nt to_nt hss rest _ _ out hout (by
                rw [aput_append_of_not_mem acc _ _ hkey, List.map_append]
                simpa using hnd')
              rw [this, aput_append_of_not_mem acc _ _ hkey, List.map_append,
                List.append_assoc]
              rfl
          | false =>
            rw [if_neg (by simp)] at hout
            have := chosen_omegas_go_keys nt to_nt hss rest _ _ out hout (by
              rw [aput_append_of_not_mem acc _ _ hkey, List.map_append]
              simpa using hnd')
            rw [this, aput_append_of_not_mem acc _ _ hkey, List.map_append,
              List.append_assoc]
            rfl

/-- Claim C2, amended: for an admissible pair `(nt, b)` the stored ω record
is a dict keyed by the containing ORFs' `orf_map` tuples — one entry per
containing codon, in codon order (assuming the bitmasks are distinct) —
whose entry for an ORF is the drawn ω *index* (a number below the ORF's
class count) when the change is non-synonymous there, and Python `None`
when it is synonymous; no one-hot vectors are stored. -/
theorem omega_record_orf_keyed_index_or_none (P : Params) (nt : NtInfo)
    (b : Base) (g gf : RNG) (r : NtResult) (hb : ¬ b = nt.state)
    (hss : is_start_stop_codon nt b = some false)
    (hnd : (nt.codons.map (fun c => PyKey.kt c.orf.orf_map)).Nodup)
    (hs : set_substitution_rates P nt g = some (r, gf)) :
    ∃ entries, r.omegaKeys b = .pdict entries ∧
      entries.map Prod.fst = nt.codons.map (fun c => PyKey.kt c.orf.orf_map) ∧
      ∀ kv ∈ entries, ∃ c ∈ nt.codons, kv.1 = PyKey.kt c.orf.orf_map ∧
        ∃ p, nt_in_pos c nt.toNuc = some p ∧
          ((is_nonsyn c p b = some true ∧
             ∃ j : Nat, j < c.orf.omega_values.length ∧ kv.2 = .num j) ∨
           (is_nonsyn c p b = some false ∧ kv.2 = .pyNone)) := by
  obtain ⟨g1, g2, o, hstep, h1, h2, h3⟩ :=
    set_substitution_rates_lookup P nt g gf r hs b
  obtain ⟨entries, g1', hcog, homega, name, v, hc, hcl, hr⟩ :=
    ssr_step_spec P nt b g1 g2 o hb hstep
  refine ⟨entries, by rw [h3, homega], ?_, ?_⟩
  · have := chosen_omegas_go_keys nt b hss nt.codons [] g1 (entries, g1')
      hcog (by simpa using hnd)
    simpa using this
  · intro kv hkv
    refine chosen_omegas_go_prop nt b
      (fun kv => ∃ c ∈ nt.codons, kv.1 = PyKey.kt c.orf.orf_map ∧
        ∃ p, nt_in_pos c nt.toNuc = some p ∧
          ((is_nonsyn c p b = some true ∧
             ∃ j : Nat, j < c.orf.omega_values.length ∧ kv.2 = .num j) ∨
           (is_nonsyn c p b = some false ∧ kv.2 = .pyNone)))
      hss nt.codons [] g1 (entries, g1') hcog (by simp) ?_ kv hkv
    intro c hc p hp
    constructor
    · intro hnonsyn j hj
      exact ⟨c, hc, rfl, p, hp, Or.inl ⟨hnonsyn, j, hj, rfl⟩⟩
    · intro hsyn
      exact ⟨c, hc, rfl, p, hp, Or.inr ⟨hsyn, rfl⟩⟩

/-- Witness for the amended C2 at the trivial scenario, position 3,
target `G` (non-synonymous in the single ORF). -/
theorem omega_record_orf_keyed_index_or_none_witness :
    ∃ entries, trivNt3run.1.omegaKeys .G = .pdict entries ∧
      entries.map Prod.fst
        = trivNt3.codons.map (fun c => PyKey.kt c.orf.orf_map) ∧
      ∀ kv ∈ entries, ∃ c ∈ trivNt3.codons, kv.1 = PyKey.kt c.orf.orf_map ∧
        ∃ p, nt_in_pos c trivNt3.toNuc = some p ∧
          ((is_nonsyn c p .G = some true ∧
             ∃ j : Nat, j < c.orf.omega_values.length ∧ kv.2 = .num j) ∨
           (is_nonsyn c p .G = some false ∧ kv.2 = .pyNone)) :=
  omega_record_orf_keyed_index_or_none trivParams trivNt3 .G [] trivNt3run.2
    trivNt3run.1 (by decide) (by rfl) (by decide) (by rfl)
